import Mathlib

/-!
Verification of the pygpc grid / experimental-design generation engine
(`pygpc/Grid.py`) against its specification.

Shallow embedding conventions:
* machine floats are modelled by exact rationals `ℚ` (the spec treats
  floating-point drift as tolerance, so algebraic identities are stated
  exactly);
* numpy arrays are lists (`List ℚ` for vectors, `List (List ℚ)` for
  row-major matrices);
* `uuid.uuid4()` identifiers are modelled by a fresh-name counter: a grid
  carries `next_id`, and newly created identifiers are
  `next_id, next_id+1, ...` — distinct from each other and from every
  identifier handed out before (the property uuid4 is relied on for);
* randomness (`np.random.*`) is modelled by oracle streams passed as
  explicit arguments;
* Python exceptions are modelled by `Except String`.
-/

namespace PyGpc

/-- Distribution family of a `RandomParameter` (`pdf_type`); the source
compares against the strings "beta", "norm"/"normal" and "gamma", the
two normal spellings always appearing together in one membership test. -/
inductive PdfType
  | beta
  | norm
  | gamma
deriving DecidableEq, Repr

/-- External `RandomParameter` data consumed by the grid engine:
`pdf_type`, `pdf_shape`, `pdf_limits` (beta support bounds) and
`pdf_limits_norm` (truncation bounds in normalized space). -/
structure RandomParameter where
  pdf_type : PdfType
  pdf_shape : List ℚ
  pdf_limits : List ℚ
  pdf_limits_norm : List ℚ
deriving DecidableEq, Repr

/-- One column of `Grid.get_denormalized_coordinates`: the normalized
coordinate of one parameter mapped to the original parameter space.
Mirrors the three `if pdf_type == ...` branches of the source. -/
def denormalize1 (p : RandomParameter) (x : ℚ) : ℚ :=
  match p.pdf_type with
  | .beta => (x + 1) / 2 * (p.pdf_limits.getD 1 0 - p.pdf_limits.getD 0 0) + p.pdf_limits.getD 0 0
  | .norm => x * p.pdf_shape.getD 1 0 + p.pdf_shape.getD 0 0
  | .gamma => x / p.pdf_shape.getD 1 0 + p.pdf_shape.getD 2 0

/-- One column of `Grid.get_normalized_coordinates`: the physical
coordinate of one parameter mapped back to normalized space.  The beta
branch is written in the source as two sequential assignments
(`coords - a` then `· / (b - a) * 2.0 - 1`), composed here. -/
def normalize1 (p : RandomParameter) (x : ℚ) : ℚ :=
  match p.pdf_type with
  | .beta => (x - p.pdf_limits.getD 0 0) / (p.pdf_limits.getD 1 0 - p.pdf_limits.getD 0 0) * 2 - 1
  | .norm => (x - p.pdf_shape.getD 0 0) / p.pdf_shape.getD 1 0
  | .gamma => (x - p.pdf_shape.getD 2 0) * p.pdf_shape.getD 1 0

/-- `Grid.get_denormalized_coordinates`: column-wise denormalization of a
whole coordinate matrix (rows = sample points, columns = parameters in
collection order). -/
def get_denormalized_coordinates (params : List RandomParameter)
    (coords_norm : List (List ℚ)) : List (List ℚ) :=
  coords_norm.map fun row => (params.zip row).map fun pr => denormalize1 pr.1 pr.2

/-- `Grid.get_normalized_coordinates`: column-wise normalization of a
whole coordinate matrix. -/
def get_normalized_coordinates (params : List RandomParameter)
    (coords : List (List ℚ)) : List (List ℚ) :=
  coords.map fun row => (params.zip row).map fun pr => normalize1 pr.1 pr.2

/-- Non-degeneracy of one parameter: the beta support is a proper
interval, and the normal and gamma scale parameters are nonzero — the
condition under which the two transforms invert each other. -/
def param_invertible (p : RandomParameter) : Bool :=
  match p.pdf_type with
  | .beta => p.pdf_limits.getD 1 0 ≠ p.pdf_limits.getD 0 0
  | .norm => p.pdf_shape.getD 1 0 ≠ 0
  | .gamma => p.pdf_shape.getD 1 0 ≠ 0

theorem denormalize1_normalize1 (p : RandomParameter) (x : ℚ)
    (h : param_invertible p = true) : normalize1 p (denormalize1 p x) = x := by
  cases hp : p.pdf_type <;>
    simp only [param_invertible, normalize1, denormalize1, hp, decide_eq_true_eq,
      ne_eq, decide_not, Bool.not_eq_true', decide_eq_false_iff_not] at h ⊢
  case beta =>
    set a := p.pdf_limits.getD 0 0 with ha
    set b := p.pdf_limits.getD 1 0 with hb
    have hba : b - a ≠ 0 := sub_ne_zero.mpr h
    field_simp
    ring
  case norm =>
    set s := p.pdf_shape.getD 1 0 with hs
    field_simp
  case gamma =>
    set s := p.pdf_shape.getD 1 0 with hs
    field_simp
    ring

theorem roundtrip_row (params : List RandomParameter) (row : List ℚ)
    (hlen : row.length = params.length)
    (hinv : ∀ p ∈ params, param_invertible p = true) :
    (params.zip ((params.zip row).map fun pr => denormalize1 pr.1 pr.2)).map
      (fun pr => normalize1 pr.1 pr.2) = row := by
  induction params generalizing row with
  | nil =>
    cases row with
    | nil => simp
    | cons x xs => simp at hlen
  | cons p ps ih =>
    cases row with
    | nil => simp at hlen
    | cons x xs =>
      simp only [List.zip_cons_cons, List.map_cons, List.cons.injEq]
      refine ⟨denormalize1_normalize1 p x (hinv p (by simp)), ?_⟩
      exact ih xs (by simpa using hlen) (fun q hq => hinv q (by simp [hq]))

/-- C2: for every ordered parameter collection whose parameters are
non-degenerate (beta with distinct limits, normal and gamma with nonzero
scale) and every normalized coordinate matrix, normalizing the
denormalized matrix reproduces it exactly (the transforms are pure
per-column maps, so over exact arithmetic the round trip is the
identity; floating point only adds tolerance). -/
theorem normalize_denormalize_roundtrip (params : List RandomParameter)
    (coords_norm : List (List ℚ))
    (hrow : ∀ row ∈ coords_norm, row.length = params.length)
    (hinv : ∀ p ∈ params, param_invertible p = true) :
    get_normalized_coordinates params (get_denormalized_coordinates params coords_norm) =
      coords_norm := by
  unfold get_normalized_coordinates get_denormalized_coordinates
  rw [List.map_map]
  refine List.map_congr_left ?_ |>.trans (List.map_id coords_norm)
  intro row hrowmem
  exact roundtrip_row params row (hrow row hrowmem) hinv

/-- Concrete parameter collection (beta on `[2, 5]`, normal with mean 1 and
std 3, gamma with rate 4 and shift 7) used to instantiate round-trip
statements. -/
def witnessParams : List RandomParameter :=
  [⟨.beta, [2, 2], [2, 5], [-1, 1]⟩,
   ⟨.norm, [1, 3], [], [-2, 2]⟩,
   ⟨.gamma, [2, 4, 7], [], [0, 10]⟩]

theorem normalize_denormalize_roundtrip_witness :
    get_normalized_coordinates witnessParams
      (get_denormalized_coordinates witnessParams [[0, 1/2, 3], [-1, 2, 5]]) =
      [[0, 1/2, 3], [-1, 2, 5]] :=
  normalize_denormalize_roundtrip witnessParams [[0, 1/2, 3], [-1, 2, 5]]
    (by decide) (by decide)

/-! ## Design Container state and `RandomGrid.extend_random_grid` -/

/-- Mutable state of a RandomGrid-family Design Container: physical and
normalized coordinate rows, the per-row identifiers (`coords_id`), and
the fresh-name counter modelling `uuid.uuid4()` (every identifier handed
out so far is `< next_id`, so identifiers `≥ next_id` are fresh). -/
structure GridState where
  coords : List (List ℚ)
  coords_norm : List (List ℚ)
  coords_id : List ℕ
  next_id : ℕ
deriving DecidableEq, Repr

/-- The `k` identifiers produced by `[uuid.uuid4() for _ in range(k)]`,
modelled as the next `k` values of the fresh-name counter. -/
def freshIds (start k : ℕ) : List ℕ := (List.range k).map (start + ·)

/-- Shared commit tail of `extend_random_grid`: the vstack of the new
coordinate rows onto the existing arrays, followed by
`self.coords_id = self.coords_id + [uuid.uuid4() for _ in range(n_grid_add)]`
(the source then recomputes `n_grid` from `coords.shape[0]`, which is the
list length here). -/
def commit_extension (s : GridState) (nc ncn : List (List ℚ)) (k : ℕ) : GridState :=
  { coords := s.coords ++ nc
    coords_norm := s.coords_norm ++ ncn
    coords_id := s.coords_id ++ freshIds s.next_id k
    next_id := s.next_id + k }

/-- The rejection loop of the `n_grid_new`-with-classifier branch: grid
points are drawn one at a time (for `Random` sub-grids of size one, for
`LHS` rows proposed from the reservoir via `lhs_extend`) and a draw is
kept exactly when the classifier predicts the requested domain, until
`k` rows have been accepted.  The stream of proposed draws
(physical row, normalized row) is the oracle `cands`; exhausting it
without `k` acceptances models a non-terminating loop (for `L1`/`FIM`
grids no `isinstance` case matches and the `while` loop never ends,
which is the `cands = []` instance). -/
def draw_in_domain (cands : List (List ℚ × List ℚ)) (clf : List ℚ → ℤ)
    (domain : ℤ) (k : ℕ) : Option (List (List ℚ) × List (List ℚ)) :=
  let acc := (cands.filter fun c => clf c.2 = domain).take k
  if acc.length = k then some (acc.map Prod.fst, acc.map Prod.snd) else none

/-- `RandomGrid.extend_random_grid`.  The randomized construction of the
fresh sub-grid (`Random`/`LHS`/`L1`/`LHS_L1`/`FIM` constructor called
with `n_grid=n_grid_add`; all `isinstance` branches commit identically
by vstacking the sub-grid rows) is the oracle `gen`, and the
classifier-guarded one-at-a-time draws are the oracle `cands`.  The
classifier `predict` is per normalized row.  Exceptions (`AssertionError`
for a domain violation, `ValueError` for an ambiguous request) become
`Except.error`; both are raised in the source before any assignment to
`coords`/`coords_norm`/`coords_id`, which is why the error branches
commit nothing here. -/
def extend_random_grid (s : GridState) (n_grid_new : Option ℕ)
    (coords coords_norm : Option (List (List ℚ)))
    (classifier : Option (List ℚ → ℤ)) (domain : ℤ)
    (gen : ℕ → List (List ℚ) × List (List ℚ))
    (cands : List (List ℚ × List ℚ)) : Except String GridState :=
  match n_grid_new with
  | some n_new =>
    let n_grid_add : ℤ := (n_new : ℤ) - (s.coords.length : ℤ)
    if 0 < n_grid_add then
      let k := n_grid_add.toNat
      match classifier with
      | none =>
        Except.ok (commit_extension s (gen k).1 (gen k).2 k)
      | some clf =>
        match draw_in_domain cands clf domain k with
        | some nc => Except.ok (commit_extension s nc.1 nc.2 k)
        | none => Except.error "sampling loop never terminates"
    else
      Except.ok (commit_extension s [] [] 0)
  | none =>
    match coords, coords_norm with
    | some c, some cn =>
      match classifier with
      | some clf =>
        if cn.all (fun row => clf row = domain) then
          Except.ok (commit_extension s c cn c.length)
        else
          Except.error "Specified coordinates are not lying in right domain!"
      | none => Except.ok (commit_extension s c cn c.length)
    | _, _ => Except.error "Specify either n_grid_new or coords and coords_norm"

/-- Python exception semantics at the call site: a raised exception
leaves the grid object exactly as it was, because in the source both
raises occur before any assignment to the coordinate arrays or the ID
list. -/
def extend_or_keep (s : GridState) (n_grid_new : Option ℕ)
    (coords coords_norm : Option (List (List ℚ)))
    (classifier : Option (List ℚ → ℤ)) (domain : ℤ)
    (gen : ℕ → List (List ℚ) × List (List ℚ))
    (cands : List (List ℚ × List ℚ)) : GridState :=
  match extend_random_grid s n_grid_new coords coords_norm classifier domain gen cands with
  | .ok s2 => s2
  | .error _ => s

theorem freshIds_length (start k : ℕ) : (freshIds start k).length = k := by
  simp [freshIds]

theorem freshIds_nodup (start k : ℕ) : (freshIds start k).Nodup := by
  refine List.Nodup.map ?_ (List.nodup_range k)
  intro a b hab
  exact Nat.add_left_cancel hab

theorem freshIds_ge (start k : ℕ) : ∀ j ∈ freshIds start k, start ≤ j := by
  intro j hj
  simp only [freshIds, List.mem_map] at hj
  obtain ⟨i, _, rfl⟩ := hj
  exact Nat.le_add_right start i

theorem draw_in_domain_lengths (cands : List (List ℚ × List ℚ)) (clf : List ℚ → ℤ)
    (domain : ℤ) (k : ℕ) (nc : List (List ℚ) × List (List ℚ))
    (h : draw_in_domain cands clf domain k = some nc) :
    nc.1.length = k ∧ nc.2.length = k := by
  simp only [draw_in_domain] at h
  split at h
  next hl =>
    obtain rfl := Option.some.inj h
    constructor <;> simpa using hl
  next => exact absurd h (by simp)

theorem commit_extension_decomp (s : GridState) (nc ncn : List (List ℚ)) (k : ℕ)
    (hlen : nc.length = k)
    (hid : ∀ i ∈ s.coords_id, i < s.next_id) :
    ∃ tc tn tid,
      (commit_extension s nc ncn k).coords = s.coords ++ tc ∧
      (commit_extension s nc ncn k).coords_norm = s.coords_norm ++ tn ∧
      (commit_extension s nc ncn k).coords_id = s.coords_id ++ tid ∧
      tid.length = tc.length ∧ tid.Nodup ∧ ∀ j ∈ tid, j ∉ s.coords_id := by
  refine ⟨nc, ncn, freshIds s.next_id k, rfl, rfl, rfl, ?_, freshIds_nodup _ _, ?_⟩
  · rw [freshIds_length, hlen]
  · intro j hj hmem
    exact absurd (hid j hmem) (Nat.not_lt.mpr (freshIds_ge _ _ j hj))

/-- C1: every successful `extend_random_grid` call — whether through
`n_grid_new` (with or without a classifier) or through explicit
`coords`/`coords_norm` — leaves the previous coordinate rows and
identifiers as an exact prefix (no reordering, no mutation) and appends
exactly one fresh, pairwise-distinct identifier per appended row, none
of which was ever used before.  `hgen` records that a freshly
constructed sub-grid of size `k` holds `k` rows; `hid` is the
fresh-name-counter invariant of the uuid4 model. -/
theorem extend_random_grid_preserves_old_rows (s s' : GridState) (n_grid_new : Option ℕ)
    (coords coords_norm : Option (List (List ℚ)))
    (classifier : Option (List ℚ → ℤ)) (domain : ℤ)
    (gen : ℕ → List (List ℚ) × List (List ℚ))
    (cands : List (List ℚ × List ℚ))
    (hgen : ∀ k, ((gen k).1.length = k ∧ (gen k).2.length = k))
    (hid : ∀ i ∈ s.coords_id, i < s.next_id)
    (hres : extend_random_grid s n_grid_new coords coords_norm classifier domain gen cands =
      Except.ok s') :
    ∃ tc tn tid,
      s'.coords = s.coords ++ tc ∧
      s'.coords_norm = s.coords_norm ++ tn ∧
      s'.coords_id = s.coords_id ++ tid ∧
      tid.length = tc.length ∧ tid.Nodup ∧ ∀ j ∈ tid, j ∉ s.coords_id := by
  unfold extend_random_grid at hres
  match n_grid_new with
  | some n_new =>
    simp only at hres
    split at hres
    · match classifier with
      | none =>
        simp only at hres
        obtain rfl := Except.ok.inj hres
        exact commit_extension_decomp s _ _ _ (hgen _).1 hid
      | some clf =>
        simp only at hres
        split at hres
        next nc hnc =>
          obtain rfl := Except.ok.inj hres
          exact commit_extension_decomp s _ _ _ (draw_in_domain_lengths _ _ _ _ _ hnc).1 hid
        next => exact absurd hres (by simp)
    · obtain rfl := Except.ok.inj hres
      exact commit_extension_decomp s [] [] 0 rfl hid
  | none =>
    match coords, coords_norm with
    | some c, some cn =>
      match classifier with
      | some clf =>
        simp only at hres
        split at hres
        · obtain rfl := Except.ok.inj hres
          exact commit_extension_decomp s _ _ _ rfl hid
        · exact absurd hres (by simp)
      | none =>
        simp only at hres
        obtain rfl := Except.ok.inj hres
        exact commit_extension_decomp s _ _ _ rfl hid
    | some _, none => exact absurd hres (by simp)
    | none, some _ => exact absurd hres (by simp)
    | none, none => exact absurd hres (by simp)

/-- Concrete one-row grid used to instantiate the extension theorems. -/
def witnessGrid : GridState := ⟨[[0]], [[0]], [5], 6⟩

/-- Constant sub-grid generator used in witnesses: size `k` yields `k`
copies of the row `[1]`. -/
def witnessGen (k : ℕ) : List (List ℚ) × List (List ℚ) :=
  (List.replicate k [1], List.replicate k [1])

theorem extend_random_grid_preserves_old_rows_witness :
    ∃ tc tn tid,
      (⟨[[0], [1]], [[0], [1]], [5, 6], 7⟩ : GridState).coords = witnessGrid.coords ++ tc ∧
      (⟨[[0], [1]], [[0], [1]], [5, 6], 7⟩ : GridState).coords_norm =
        witnessGrid.coords_norm ++ tn ∧
      (⟨[[0], [1]], [[0], [1]], [5, 6], 7⟩ : GridState).coords_id =
        witnessGrid.coords_id ++ tid ∧
      tid.length = tc.length ∧ tid.Nodup ∧ ∀ j ∈ tid, j ∉ witnessGrid.coords_id :=
  extend_random_grid_preserves_old_rows witnessGrid ⟨[[0], [1]], [[0], [1]], [5, 6], 7⟩
    (some 2) none none none 0 witnessGen []
    (fun k => ⟨by simp [witnessGen], by simp [witnessGen]⟩)
    (by decide) (by rfl)

/-- C7: if explicit `coords`/`coords_norm` are supplied together with a
classifier and some supplied normalized row is predicted outside the
requested domain, the call raises `AssertionError` and the Design
Container is left exactly as it was — the raise happens in the source
before the vstack and before the ID append, so no partial extension is
ever committed. -/
theorem extend_explicit_domain_violation (s : GridState) (c cn : List (List ℚ))
    (clf : List ℚ → ℤ) (domain : ℤ)
    (gen : ℕ → List (List ℚ) × List (List ℚ)) (cands : List (List ℚ × List ℚ))
    (hbad : ¬ cn.all (fun row => clf row = domain)) :
    extend_random_grid s none (some c) (some cn) (some clf) domain gen cands =
      Except.error "Specified coordinates are not lying in right domain!" ∧
    extend_or_keep s none (some c) (some cn) (some clf) domain gen cands = s := by
  have herr : extend_random_grid s none (some c) (some cn) (some clf) domain gen cands =
      Except.error "Specified coordinates are not lying in right domain!" := by
    simp [extend_random_grid, hbad]
  exact ⟨herr, by simp [extend_or_keep, herr]⟩

theorem extend_explicit_domain_violation_witness :
    extend_random_grid witnessGrid none (some [[2]]) (some [[2]])
        (some fun _ => 1) 0 witnessGen [] =
      Except.error "Specified coordinates are not lying in right domain!" ∧
    extend_or_keep witnessGrid none (some [[2]]) (some [[2]])
        (some fun _ => 1) 0 witnessGen [] = witnessGrid :=
  extend_explicit_domain_violation witnessGrid [[2]] [[2]] (fun _ => 1) 0 witnessGen []
    (by decide)

/-! ## LHS criterion resolution and `sample_init` -/

/-- Value held under an options key of an LHS options dictionary: either
a single string or a list of strings (the source wraps a non-list value
into a one-element list). -/
inductive LhsOptVal
  | str (s : String)
  | strs (l : List String)
deriving DecidableEq, Repr

/-- Criterion resolution of `LHS.__init__`: `self.criterion` starts as
`None`; if the options are a dict holding a "criterion" key its value is
taken, if they are a dict without the key the default is `["ese"]`, and
if the options are `None` the criterion stays `None`; finally a
non-list criterion is wrapped into a one-element list (so `None` becomes
`[None]`). -/
def lhs_resolve_criterion (options : Option (List (String × LhsOptVal))) :
    List (Option String) :=
  match options with
  | some opts =>
    match opts.lookup "criterion" with
    | some (.str s) => [some s]
    | some (.strs l) => l.map some
    | none => [some "ese"]
  | none => [Option.none]

/-- The four refinement paths of `LHS.get_lhs_grid`. -/
inductive LhsPath
  | corr
  | maximin
  | ese
  | plain
deriving DecidableEq, Repr

/-- Criterion dispatch of `LHS.get_lhs_grid`: `criterion[0] is 'corr'`,
`criterion[0] is 'maximin'`, `criterion[0] is 'ese'`, else the plain
`lhs_initial` design.  CPython string interning makes the `is` tests act
as equality on these literals; the clause `self.criterion is 'm'`
compares the whole list with a string and can never hold, so it is
omitted. -/
def get_lhs_grid_path (criterion : List (Option String)) : LhsPath :=
  if criterion.headD Option.none = some "corr" then .corr
  else if criterion.headD Option.none = some "maximin" then .maximin
  else if criterion.headD Option.none = some "ese" then .ese
  else .plain

/-- C9 counterexample: an LHS grid constructed with `options=None` does
not default to the "ese" criterion — the criterion resolves to `[None]`
and grid generation takes the unrefined `lhs_initial` path. -/
theorem lhs_criterion_none_options_counterexample :
    lhs_resolve_criterion Option.none = [Option.none] ∧
    get_lhs_grid_path (lhs_resolve_criterion Option.none) = LhsPath.plain ∧
    ¬ get_lhs_grid_path (lhs_resolve_criterion Option.none) = LhsPath.ese := by
  decide

/-- C9 (amended): for every LHS grid whose options are a dictionary
without a "criterion" entry, the criterion defaults to `["ese"]` and
grid generation takes the ese-optimized design path; with
`options=None`, however, the criterion resolves to `[None]` and the
plain (unrefined) initial design path is taken. -/
theorem lhs_criterion_defaults_to_ese (opts : List (String × LhsOptVal))
    (h : opts.lookup "criterion" = Option.none) :
    lhs_resolve_criterion (some opts) = [some "ese"] ∧
    get_lhs_grid_path (lhs_resolve_criterion (some opts)) = LhsPath.ese := by
  constructor
  · simp [lhs_resolve_criterion, h]
  · simp [lhs_resolve_criterion, get_lhs_grid_path, h]

theorem lhs_criterion_defaults_to_ese_witness :
    lhs_resolve_criterion (some []) = [some "ese"] ∧
    get_lhs_grid_path (lhs_resolve_criterion (some [])) = LhsPath.ese :=
  lhs_criterion_defaults_to_ese [] (by decide)

/-- Unseeded sampling of `Random.__init__` producing `coords_norm` for
`n` rows: the draw oracle gives, for row `i` and column `j`, the
accepted draw of that column's distribution — for beta the raw
`np.random.beta(p, q)` sample in `[0, 1]` (mapped to `[-1, 1]` by
`* 2.0 - 1`), for "norm"/"normal" and "gamma" the value on which the
rejection-resampling loop against `x_perc_norm` stops (the loop consumes
an unbounded number of raw draws and is absorbed into the oracle). -/
def random_coords_norm (params : List RandomParameter) (n : ℕ)
    (draws : ℕ → ℕ → ℚ) : List (List ℚ) :=
  (List.range n).map fun i =>
    params.enum.map fun jp =>
      match jp.2.pdf_type with
      | .beta => draws i jp.1 * 2 - 1
      | .norm => draws i jp.1
      | .gamma => draws i jp.1

/-- Reservoir tail of `LHS.get_lhs_grid` (modelled for contrast with the
`n_grid == 1` branch of `sample_init`): the chosen `[0,1]^dim` design is
pushed through each parameter's external `icdf`, rows violating any
dimension's `pdf_limits_norm` bounds are dropped (oversample-then-filter;
the resample `while` loop is absorbed into the `design` oracle), and the
first `n_grid` surviving rows are kept. -/
def get_lhs_grid_rows (params : List RandomParameter) (icdfs : List (ℚ → ℚ))
    (design : List (List ℚ)) (n_grid : ℕ) : List (List ℚ) :=
  let reservoir := design.map fun row => (icdfs.zip row).map fun fr => fr.1 fr.2
  let kept := reservoir.filter fun row =>
    (params.zip row).all fun pr =>
      decide (pr.1.pdf_limits_norm.getD 0 0 ≤ pr.2) &&
        decide (pr.2 ≤ pr.1.pdf_limits_norm.getD 1 0)
  kept.take n_grid

/-- `LHS.sample_init`: with exactly one requested point a plain `Random`
grid of size `n_grid` is constructed and its `coords_norm` taken over;
otherwise the reservoir is set up and `get_lhs_grid` runs. -/
def sample_init (params : List RandomParameter) (n_grid : ℕ)
    (draws : ℕ → ℕ → ℚ) (icdfs : List (ℚ → ℚ)) (design : List (List ℚ)) :
    List (List ℚ) :=
  if n_grid = 1 then random_coords_norm params n_grid draws
  else get_lhs_grid_rows params icdfs design n_grid

theorem random_coords_norm_limits_irrel (params : List RandomParameter) (n : ℕ)
    (draws : ℕ → ℕ → ℚ) (g : RandomParameter → List ℚ) :
    random_coords_norm (params.map fun p => { p with pdf_limits_norm := g p }) n draws =
      random_coords_norm params n draws := by
  unfold random_coords_norm
  refine List.map_congr_left fun i _ => ?_
  rw [List.enum_map, List.map_map]
  refine List.map_congr_left fun jp _ => ?_
  rfl

/-- C10: an LHS grid with `n_grid == 1` and no explicit coordinates
delegates to a plain `Random` sampler — the single point is the i.i.d.
draw of the `Random` path, no criterion-refined LHS design or `icdf`
reservoir is consulted (the result is independent of both oracles), and
no `pdf_limits_norm` reservoir filtering is applied (the result is
unchanged under arbitrary modification of every parameter's
`pdf_limits_norm`). -/
theorem sample_init_single_point_delegates (params : List RandomParameter)
    (draws : ℕ → ℕ → ℚ) (icdfs icdfs2 : List (ℚ → ℚ))
    (design design2 : List (List ℚ)) (g : RandomParameter → List ℚ) :
    sample_init params 1 draws icdfs design = random_coords_norm params 1 draws ∧
    sample_init params 1 draws icdfs2 design2 = sample_init params 1 draws icdfs design ∧
    sample_init (params.map fun p => { p with pdf_limits_norm := g p }) 1 draws icdfs design =
      sample_init params 1 draws icdfs design := by
  refine ⟨rfl, rfl, ?_⟩
  simp only [sample_init, if_pos rfl]
  exact random_coords_norm_limits_irrel params 1 draws g

/-! ## TensorGrid construction -/

/-- One-dimensional quadrature rule (knots, weights) as returned by the
external `get_quadrature_<family>_1d` providers. -/
structure QuadRule where
  knots : List ℚ
  weights : List ℚ
deriving DecidableEq, Repr

/-- Knot/weight fetch of `TensorGrid.__init__` for one dimension.  The
provider oracle is keyed by the family name (distribution shape
parameters passed to the jacobi provider are part of the oracle's
closure).  Two source quirks preserved: the membership test
`in ['clenshaw_curtis' or 'cc']` evaluates to `in ['clenshaw_curtis']`,
so the spelling "cc" falls through to the unknown branch; and the
unknown branch merely constructs `AttributeError("Specified grid_type
... not implemented!")` without raising it, leaving `knots = []` and
`weights = []`. -/
def tensor_fetch_1d (provider : String → ℕ → QuadRule) (grid_type : String)
    (n : ℕ) : QuadRule :=
  if grid_type = "jacobi" then provider "jacobi" n
  else if grid_type = "hermite" then provider "hermite" n
  else if grid_type = "clenshaw_curtis" then provider "clenshaw_curtis" n
  else if grid_type = "fejer2" then provider "fejer2" n
  else if grid_type = "patterson" then provider "patterson" n
  else ⟨[], []⟩

/-- Cartesian product of per-dimension value lists (`get_cartesian_product`),
first axis varying slowest. -/
def get_cartesian_product : List (List ℚ) → List (List ℚ)
  | [] => [[]]
  | l :: ls => (l.map fun x => (get_cartesian_product ls).map (x :: ·)).flatten

/-- Result of `TensorGrid.__init__` grid generation. -/
structure TensorGridState where
  knots_dim_list : List (List ℚ)
  weights_dim_list : List (List ℚ)
  coords_norm : List (List ℚ)
  weights : List ℚ
  coords : List (List ℚ)
  n_grid : ℕ
deriving DecidableEq, Repr

/-- Grid-generation path of `TensorGrid.__init__` (no coordinates
supplied): fetch per-dimension 1-D rules, tensor the knots, rescale
normalized coordinates of normal parameters on non-hermite rules by
1.960, combine weights as the row-products of the weight tensor divided
by `2^dim`, then denormalize.  An `Except` result models constructor
exceptions; this path never raises, which is what claim C6 is about. -/
def tensor_grid_init (provider : String → ℕ → QuadRule)
    (params : List RandomParameter) (grid_type : List String) (n_dim : List ℕ) :
    Except String TensorGridState :=
  let rules := (grid_type.zip n_dim).map fun gn => tensor_fetch_1d provider gn.1 gn.2
  let knots_dim_list := rules.map QuadRule.knots
  let weights_dim_list := rules.map QuadRule.weights
  let coords_norm0 := get_cartesian_product knots_dim_list
  let coords_norm := coords_norm0.map fun row =>
    (params.zip (grid_type.zip row)).map fun pgr =>
      if pgr.1.pdf_type = .norm ∧ ¬ pgr.2.1 = "hermite" then pgr.2.2 * (196/100)
      else pgr.2.2
  let weights := (get_cartesian_product weights_dim_list).map fun row =>
    row.prod / 2 ^ params.length
  let coords := get_denormalized_coordinates params coords_norm
  Except.ok { knots_dim_list := knots_dim_list, weights_dim_list := weights_dim_list,
              coords_norm := coords_norm, weights := weights, coords := coords,
              n_grid := coords.length }

/-- C6 (code bug): constructing a TensorGrid whose `grid_type` entry is
outside the implemented families does NOT fail at construction time —
the source builds the descriptive `AttributeError` but never raises it,
so construction completes silently with an empty 1-D knot list and an
empty (0-point) grid.  Evaluated here at the failing input: one
beta(1,1) parameter on `[0, 1]` with `grid_type=["foo"], n_dim=[3]`. -/
theorem tensor_grid_unknown_type_not_raised :
    tensor_grid_init (fun _ n => ⟨List.replicate n 0, List.replicate n 1⟩)
        [⟨.beta, [1, 1], [0, 1], [-1, 1]⟩] ["foo"] [3] =
      Except.ok ⟨[[]], [[]], [], [], [], 0⟩ := by
  rfl

/-! ## SparseGrid difference grids (`calc_grid`) -/

/-- Difference-grid lookup entry (`dl_k[i_level][i_p]`, `dl_w[i_level][i_p]`). -/
structure DiffEntry where
  knots : List ℚ
  weights : List ℚ
deriving DecidableEq, Repr

/-- First level of one dimension's level sequence in
`SparseGrid.calc_multi_indices`: fejer2 sequences start at level 1, all
other families at level 0. -/
def first_level (isFejer2 : Bool) : ℕ := if isFejer2 then 1 else 0

/-- Level sequence of one dimension (`calc_multi_indices`):
`range(1, level + 1)` for fejer2, `range(level + 1)` otherwise. -/
def level_sequence_dim (isFejer2 : Bool) (level : ℕ) : List ℕ :=
  if isFejer2 then List.range' 1 level else List.range (level + 1)

/-- The two 1-D rules fetched at one level of `SparseGrid.calc_grid` for
one dimension: the level's rule and the previous level's rule.  `rule`
is the external provider at a given polynomial order; `orders` models
Python list indexing into the dimension's `order_sequence` (the fejer2
branch indexes at `i_level - 1` and `i_level - 2`, every other branch at
`i_level` and `i_level - 1`; a negative index wraps around as in Python,
and the wrapped fetch made at the first level is computed but unused,
exactly as in the source). -/
def calc_grid_fetch (isFejer2 : Bool) (rule : ℕ → QuadRule) (orders : ℤ → ℕ)
    (i_level : ℕ) : QuadRule × QuadRule :=
  let off : ℤ := if isFejer2 then 1 else 0
  (rule (orders ((i_level : ℤ) - off)), rule (orders ((i_level : ℤ) - off - 1)))

/-- The difference-grid entry stored for one level
(`if (i_level == 0 and not fejer2) or (i_level == 1 and fejer2)` store
the rule as-is, else `hstack` the knots with the previous knots and the
weights with the negated previous weights). -/
def calc_grid_entry (isFejer2 : Bool) (rule : ℕ → QuadRule) (orders : ℤ → ℕ)
    (i_level : ℕ) : DiffEntry :=
  let f := calc_grid_fetch isFejer2 rule orders i_level
  if (i_level = 0 ∧ isFejer2 = false) ∨ (i_level = 1 ∧ isFejer2 = true) then
    ⟨f.1.knots, f.1.weights⟩
  else
    ⟨f.1.knots ++ f.2.knots, f.1.weights ++ f.2.weights.map Neg.neg⟩

/-- One dimension's pass of `SparseGrid.calc_grid`: iterate the level
sequence, writing each level's entry into the lookup table at index
`i_level` (the table is a map from level to entry; slots never written
keep the `0` placeholder of the source, modelled as `none`). -/
def calc_grid_dim (isFejer2 : Bool) (rule : ℕ → QuadRule) (orders : ℤ → ℕ)
    (level : ℕ) : ℕ → Option DiffEntry :=
  (level_sequence_dim isFejer2 level).foldl
    (fun tbl i_level => fun j =>
      if j = i_level then some (calc_grid_entry isFejer2 rule orders i_level) else tbl j)
    (fun _ => none)

theorem foldl_write_lookup (f : ℕ → DiffEntry) (L : List ℕ)
    (t0 : ℕ → Option DiffEntry) (j : ℕ) :
    (L.foldl (fun tbl i => fun x => if x = i then some (f i) else tbl x) t0) j =
      if j ∈ L then some (f j) else t0 j := by
  induction L generalizing t0 with
  | nil => simp
  | cons a L ih =>
    simp only [List.foldl_cons, ih, List.mem_cons]
    by_cases hj : j ∈ L
    · simp [hj]
    · by_cases hja : j = a <;> simp [hj, hja]

/-- C4: in `SparseGrid.calc_grid`, for each dimension the lookup entry
at the first level of that dimension's level sequence is the fetched 1-D
rule stored unchanged, and the entry at every later level of the
sequence is the concatenation of that level's knots with the previous
level's knots together with the concatenation of that level's weights
with the negated previous level's weights. -/
theorem calc_grid_difference_entries (isFejer2 : Bool) (rule : ℕ → QuadRule)
    (orders : ℤ → ℕ) (level : ℕ) (hlevel : first_level isFejer2 ≤ level) :
    (calc_grid_dim isFejer2 rule orders level (first_level isFejer2) =
      some ⟨(calc_grid_fetch isFejer2 rule orders (first_level isFejer2)).1.knots,
            (calc_grid_fetch isFejer2 rule orders (first_level isFejer2)).1.weights⟩) ∧
    ∀ l ∈ level_sequence_dim isFejer2 level, first_level isFejer2 < l →
      calc_grid_dim isFejer2 rule orders level l =
        some ⟨(calc_grid_fetch isFejer2 rule orders l).1.knots ++
                (calc_grid_fetch isFejer2 rule orders l).2.knots,
              (calc_grid_fetch isFejer2 rule orders l).1.weights ++
                (calc_grid_fetch isFejer2 rule orders l).2.weights.map Neg.neg⟩ := by
  constructor
  · rw [calc_grid_dim, foldl_write_lookup]
    have hmem : first_level isFejer2 ∈ level_sequence_dim isFejer2 level := by
      cases isFejer2 with
      | false => simp [first_level, level_sequence_dim]
      | true =>
        have h1 : 1 ≤ level := by simpa [first_level] using hlevel
        simp [first_level, level_sequence_dim, List.mem_range']
        omega
    rw [if_pos hmem, calc_grid_entry]
    have hcond : (first_level isFejer2 = 0 ∧ isFejer2 = false) ∨
        (first_level isFejer2 = 1 ∧ isFejer2 = true) := by
      cases isFejer2 <;> simp [first_level]
    rw [if_pos hcond]
  · intro l hl hfirst
    rw [calc_grid_dim, foldl_write_lookup, if_pos hl, calc_grid_entry]
    have hcond : ¬ ((l = 0 ∧ isFejer2 = false) ∨ (l = 1 ∧ isFejer2 = true)) := by
      cases isFejer2 with
      | false =>
        simp only [first_level, if_neg] at hfirst
        rintro (⟨rfl, _⟩ | ⟨_, h⟩)
        · simp [first_level] at hfirst
        · exact absurd h (by simp)
      | true =>
        rintro (⟨_, h⟩ | ⟨rfl, _⟩)
        · exact absurd h (by simp)
        · simp [first_level] at hfirst
    rw [if_neg hcond]

theorem calc_grid_difference_entries_witness :
    (calc_grid_dim true (fun n => ⟨[(n : ℚ)], [(n : ℚ)]⟩) (fun z => z.toNat) 2
        (first_level true) =
      some ⟨(calc_grid_fetch true (fun n => ⟨[(n : ℚ)], [(n : ℚ)]⟩) (fun z => z.toNat)
              (first_level true)).1.knots,
            (calc_grid_fetch true (fun n => ⟨[(n : ℚ)], [(n : ℚ)]⟩) (fun z => z.toNat)
              (first_level true)).1.weights⟩) ∧
    ∀ l ∈ level_sequence_dim true 2, first_level true < l →
      calc_grid_dim true (fun n => ⟨[(n : ℚ)], [(n : ℚ)]⟩) (fun z => z.toNat) 2 l =
        some ⟨(calc_grid_fetch true (fun n => ⟨[(n : ℚ)], [(n : ℚ)]⟩) (fun z => z.toNat)
                l).1.knots ++
                (calc_grid_fetch true (fun n => ⟨[(n : ℚ)], [(n : ℚ)]⟩) (fun z => z.toNat)
                l).2.knots,
              (calc_grid_fetch true (fun n => ⟨[(n : ℚ)], [(n : ℚ)]⟩) (fun z => z.toNat)
                l).1.weights ++
                (calc_grid_fetch true (fun n => ⟨[(n : ℚ)], [(n : ℚ)]⟩) (fun z => z.toNat)
                l).2.weights.map Neg.neg⟩ :=
  calc_grid_difference_entries true (fun n => ⟨[(n : ℚ)], [(n : ℚ)]⟩) (fun z => z.toNat) 2
    (by decide)

/-! ## FIM candidate scoring (`workhorse_get_det_updated_fim_matrix`) -/

/-- `np.outer(new_row, new_row)`: the rank-one update matrix of one
design-matrix row. -/
def np_outer {nb : ℕ} (v : Fin nb → ℚ) : Matrix (Fin nb) (Fin nb) ℚ :=
  Matrix.of fun i j => v i * v j

/-- Fisher-information matrix after accumulating the outer products of
the rows of the given candidates onto `fim` (`fim_matrix += np.outer`). -/
def fim_after {nb : ℕ} (psi : List ℚ → Fin nb → ℚ)
    (fim : Matrix (Fin nb) (Fin nb) ℚ) (cs : List (List ℚ)) :
    Matrix (Fin nb) (Fin nb) ℚ :=
  cs.foldl (fun F c => F + np_outer (psi c)) fim

/-- `workhorse_get_det_updated_fim_matrix`: iterate over the candidate
chunk, each step executing `fim_matrix += np.outer(new_row, new_row)` on
the worker's matrix IN PLACE and recording `det(fim_matrix)` — so the
matrix carries every earlier candidate's outer product into each later
candidate's determinant.  The surrogate oracle
`gpc.create_gpc_matrix(b, c[np.newaxis, :])` producing one row of
`n_basis` entries per candidate is `psi`. -/
def workhorse_get_det_updated_fim_matrix {nb : ℕ} (psi : List ℚ → Fin nb → ℚ)
    (fim_matrix : Matrix (Fin nb) (Fin nb) ℚ) (coords_norm_list : List (List ℚ)) :
    List ℚ :=
  (coords_norm_list.foldl
    (fun acc c =>
      let fm := acc.1 + np_outer (psi c)
      (fm, acc.2 ++ [fm.det]))
    (fim_matrix, ([] : List ℚ))).2

/-- Modelled from the spec: per-candidate scores
`det(F + candidate_row^T candidate_row)` with the Fisher matrix `F`
frozen at the start of the round and identical for all candidates — the
scoring rule the specification (and claim C5) describes. -/
def frozen_chunk_scores {nb : ℕ} (psi : List ℚ → Fin nb → ℚ)
    (fim : Matrix (Fin nb) (Fin nb) ℚ) (chunk : List (List ℚ)) : List ℚ :=
  chunk.map fun c => (fim + np_outer (psi c)).det

/-- One-basis-term surrogate oracle used in concrete FIM statements: the
design-matrix row of a candidate is its first coordinate. -/
def wPsi : List ℚ → Fin 1 → ℚ := fun c _ => c.getD 0 0

/-- Concrete 1x1 starting Fisher matrix. -/
def wFim : Matrix (Fin 1) (Fin 1) ℚ := Matrix.of fun _ _ => 1

/-- C5 counterexample: with one basis term, starting Fisher matrix `[[1]]`
and the candidate chunk `[[1], [1]]`, the code scores the second
candidate as `det(F + c1 c1^T + c2 c2^T) = 3` while the claimed
frozen-matrix rule gives `det(F + c2 c2^T) = 2`; the two score lists
differ, falsifying the claim that every candidate of a round is scored
against the same frozen matrix. -/
theorem workhorse_frozen_scores_counterexample :
    workhorse_get_det_updated_fim_matrix wPsi wFim [[1], [1]] = [2, 3] ∧
    frozen_chunk_scores wPsi wFim [[1], [1]] = [2, 2] ∧
    ¬ workhorse_get_det_updated_fim_matrix wPsi wFim [[1], [1]] =
        frozen_chunk_scores wPsi wFim [[1], [1]] := by
  have h1 : workhorse_get_det_updated_fim_matrix wPsi wFim [[1], [1]] = [2, 3] := by
    simp [workhorse_get_det_updated_fim_matrix, wPsi, wFim, np_outer, Matrix.det_fin_one]
    norm_num
  have h2 : frozen_chunk_scores wPsi wFim [[1], [1]] = [2, 2] := by
    simp [frozen_chunk_scores, wPsi, wFim, np_outer, Matrix.det_fin_one]
    norm_num
  refine ⟨h1, h2, ?_⟩
  rw [h1, h2]
  decide

/-- Determinant trace of the in-place accumulation, in recursive form. -/
def det_trace {nb : ℕ} (psi : List ℚ → Fin nb → ℚ)
    (fim : Matrix (Fin nb) (Fin nb) ℚ) : List (List ℚ) → List ℚ
  | [] => []
  | c :: t =>
    (fim + np_outer (psi c)).det :: det_trace psi (fim + np_outer (psi c)) t

theorem workhorse_eq_det_trace {nb : ℕ} (psi : List ℚ → Fin nb → ℚ)
    (chunk : List (List ℚ)) :
    ∀ (fim : Matrix (Fin nb) (Fin nb) ℚ) (pre : List ℚ),
      (chunk.foldl
        (fun acc c =>
          let fm := acc.1 + np_outer (psi c)
          (fm, acc.2 ++ [fm.det]))
        (fim, pre)).2 = pre ++ det_trace psi fim chunk := by
  induction chunk with
  | nil =>
    intro fim pre
    simp only [List.foldl_nil, det_trace, List.append_nil]
  | cons c t ih =>
    intro fim pre
    simp only [List.foldl_cons, det_trace, ih, List.append_assoc, List.singleton_append]

theorem det_trace_getElem {nb : ℕ} (psi : List ℚ → Fin nb → ℚ)
    (chunk : List (List ℚ)) :
    ∀ (i : ℕ) (fim : Matrix (Fin nb) (Fin nb) ℚ), i < chunk.length →
      (det_trace psi fim chunk)[i]? =
        some (fim_after psi fim (chunk.take (i + 1))).det := by
  induction chunk with
  | nil => intro i fim hi; simp at hi
  | cons c t ih =>
    intro i fim hi
    cases i with
    | zero =>
      simp only [det_trace, List.getElem?_cons_zero, fim_after, List.take_succ_cons,
        List.take_zero, List.foldl_cons, List.foldl_nil]
    | succ i =>
      simp only [det_trace, List.getElem?_cons_succ, List.take_succ_cons, fim_after,
        List.foldl_cons]
      exact ih i (fim + np_outer (psi c)) (by simpa using hi)

/-- C5 (amended): the FIM selector still adds points strictly one at a
time and each worker chunk starts from the round's Fisher matrix `F`
frozen at the start of the round (each worker receives its own copy),
but within one chunk the matrix accumulates the outer products of all
earlier candidates of that chunk: candidate `i` (0-based) of a chunk is
scored as `det(F + sum over j ≤ i of row_j^T row_j)`, not against `F`
alone; the appended candidate is the argmax of these cumulative
scores. -/
theorem workhorse_scores_cumulative {nb : ℕ} (psi : List ℚ → Fin nb → ℚ)
    (fim : Matrix (Fin nb) (Fin nb) ℚ) (chunk : List (List ℚ)) (i : ℕ)
    (hi : i < chunk.length) :
    (workhorse_get_det_updated_fim_matrix psi fim chunk)[i]? =
      some (fim_after psi fim (chunk.take (i + 1))).det := by
  unfold workhorse_get_det_updated_fim_matrix
  rw [workhorse_eq_det_trace, List.nil_append]
  exact det_trace_getElem psi chunk i fim hi

theorem workhorse_scores_cumulative_witness :
    (workhorse_get_det_updated_fim_matrix wPsi wFim [[1], [1]])[1]? =
      some (fim_after wPsi wFim (List.take 2 [[1], [1]])).det :=
  workhorse_scores_cumulative wPsi wFim [[1], [1]] 1 (by decide)

/-! ## LHS enhanced stochastic evolution (`lhs_ese`) -/

/-- Loop state of `LHS.lhs_ese`: acceptance threshold `T`, the current
design `P_` with its PhiP value `Phi`, the best design `P_best` with
`Phi_best`, and the per-outer-pass acceptance and improvement
counters. -/
structure EseState (α : Type) where
  T : ℚ
  P : α
  Phi : ℚ
  P_best : α
  Phi_best : ℚ
  n_acpt : ℕ
  n_imp : ℕ

/-- Number of proposed row exchanges per inner step (`J = 25`). -/
def eseJ : ℕ := 25

/-- Convergence tolerance of the outer loop threshold update (`tol = 1e-3`). -/
def eseTol : ℚ := 1 / 1000

/-- Helper of `argmin_list`: scan remembering the first position of the
strictly smallest value seen so far. -/
def argmin_go : List ℚ → ℚ → ℕ → ℕ → ℕ
  | [], _, _, bestIdx => bestIdx
  | x :: xs, bestVal, idx, bestIdx =>
    if x < bestVal then argmin_go xs x (idx + 1) idx
    else argmin_go xs bestVal (idx + 1) bestIdx

/-- `np.argmin`: index of the first occurrence of the minimum. -/
def argmin_list : List ℚ → ℕ
  | [] => 0
  | x :: xs => argmin_go xs x 1 0

theorem argmin_go_lt (xs : List ℚ) : ∀ (bestVal : ℚ) (idx bestIdx : ℕ),
    bestIdx < idx → argmin_go xs bestVal idx bestIdx < idx + xs.length := by
  induction xs with
  | nil => intro bestVal idx bestIdx h; simpa [argmin_go] using h
  | cons x xs ih =>
    intro bestVal idx bestIdx h
    rw [argmin_go]
    by_cases hx : x < bestVal
    · rw [if_pos hx]
      have := ih x (idx + 1) idx (Nat.lt_succ_self idx)
      simpa [Nat.add_assoc, Nat.add_comm, Nat.add_left_comm] using this
    · rw [if_neg hx]
      have := ih bestVal (idx + 1) bestIdx (Nat.lt_succ_of_lt h)
      simpa [Nat.add_assoc, Nat.add_comm, Nat.add_left_comm] using this

theorem argmin_list_lt (l : List ℚ) (hl : l ≠ []) : argmin_list l < l.length := by
  cases l with
  | nil => exact absurd rfl hl
  | cons x xs =>
    have := argmin_go_lt xs x 1 0 (by omega)
    simp only [argmin_list, List.length_cons]
    omega

/-- One inner-loop step of `lhs_ese`.  The `exchange` oracle produces
the design `PhiP_exchange` builds for proposal `j` from the current
design (the randomized row-pair choice, the cycling column index
`(i + 1) % dim` and the `grid_pre` fixed-row exclusion are part of the
oracle's indexing); the proposal's PhiP value — computed in the source
incrementally from the current `Phi` by an exact algebraic identity — is
`phiP` of the proposed design.  `u` is the per-step threshold draw
`np.random.rand(1)[0]`. -/
def ese_inner_step {α : Type} (phiP : α → ℚ) (exchange : ℕ → α → α) (u : ℚ)
    (st : EseState α) : EseState α :=
  let l_P := (List.range eseJ).map fun j => exchange j st.P
  let l_Phi := l_P.map phiP
  let k := argmin_list l_Phi
  let Phi_try := l_Phi.getD k 0
  if Phi_try - st.Phi ≤ st.T * u then
    let P2 := l_P.getD k st.P
    if Phi_try < st.Phi_best then
      { st with P := P2, Phi := Phi_try, n_acpt := st.n_acpt + 1,
                P_best := P2, Phi_best := Phi_try, n_imp := st.n_imp + 1 }
    else
      { st with P := P2, Phi := Phi_try, n_acpt := st.n_acpt + 1 }
  else st

/-- One outer-loop pass of `lhs_ese`: reset the counters, run the inner
loop, then adapt the acceptance threshold `T` from the acceptance and
improvement rates against the fixed 0.1 bands. -/
def ese_outer_step {α : Type} (phiP : α → ℚ) (exchange : ℕ → ℕ → α → α)
    (rand : ℕ → ℚ) (inner_loop : ℕ) (st : EseState α) : EseState α :=
  let Phi_oldbest := st.Phi_best
  let st0 : EseState α := { st with n_acpt := 0, n_imp := 0 }
  let st1 := (List.range inner_loop).foldl
    (fun s i => ese_inner_step phiP (exchange i) (rand i) s) st0
  let p_accpt : ℚ := (st1.n_acpt : ℚ) / (inner_loop : ℚ)
  let p_imp : ℚ := (st1.n_imp : ℚ) / (inner_loop : ℚ)
  let T2 :=
    if st1.Phi_best - Phi_oldbest < eseTol then
      if 1/10 ≤ p_accpt ∧ p_imp < p_accpt then (8/10) * st1.T
      else if 1/10 ≤ p_accpt ∧ p_imp = p_accpt then st1.T
      else st1.T / (8/10)
    else
      if p_accpt ≤ 1/10 then st1.T / (7/10)
      else (9/10) * st1.T
  { st1 with T := T2 }

/-- Initial `lhs_ese` state: `t0 = 0.005 * PhiP(P0)`, current and best
design both the initial design `P0`. -/
def ese_init {α : Type} (phiP : α → ℚ) (P0 : α) : EseState α :=
  { T := (5/1000) * phiP P0, P := P0, Phi := phiP P0,
    P_best := P0, Phi_best := phiP P0, n_acpt := 0, n_imp := 0 }

/-- State after `n` outer-loop passes of `lhs_ese`. -/
def ese_outer_iter {α : Type} (phiP : α → ℚ) (exchange : ℕ → ℕ → ℕ → α → α)
    (rand : ℕ → ℕ → ℚ) (inner_loop : ℕ) (P0 : α) (n : ℕ) : EseState α :=
  (List.range n).foldl
    (fun s z => ese_outer_step phiP (exchange z) (rand z) inner_loop s)
    (ese_init phiP P0)

/-- `LHS.lhs_ese`: `outer_loop = min(int(1.5 * dim), 30)`,
`inner_loop = min(20 * dim, 100)`; the best-ever design is returned. -/
def lhs_ese {α : Type} (phiP : α → ℚ) (exchange : ℕ → ℕ → ℕ → α → α)
    (rand : ℕ → ℕ → ℚ) (dim : ℕ) (P0 : α) : α :=
  (ese_outer_iter phiP exchange rand (min (20 * dim) 100) P0 (min (3 * dim / 2) 30)).P_best

/-- Tracking invariant of the ese loop: the stored `Phi` and `Phi_best`
are the PhiP values of the stored designs. -/
def ese_consistent {α : Type} (phiP : α → ℚ) (st : EseState α) : Prop :=
  st.Phi = phiP st.P ∧ st.Phi_best = phiP st.P_best

theorem getD_map_phiP {α : Type} (phiP : α → ℚ) (l : List α) (k : ℕ) (d : α)
    (hk : k < l.length) : (l.map phiP).getD k 0 = phiP (l.getD k d) := by
  rw [List.getD_eq_getElem _ _ (by simpa using hk), List.getD_eq_getElem _ _ hk]
  simp

theorem ese_inner_step_phi_try {α : Type} (phiP : α → ℚ) (exchange : ℕ → α → α)
    (st : EseState α) :
    (((List.range eseJ).map fun j => exchange j st.P).map phiP).getD
        (argmin_list (((List.range eseJ).map fun j => exchange j st.P).map phiP)) 0 =
      phiP (((List.range eseJ).map fun j => exchange j st.P).getD
        (argmin_list (((List.range eseJ).map fun j => exchange j st.P).map phiP)) st.P) := by
  apply getD_map_phiP
  have hne : (((List.range eseJ).map fun j => exchange j st.P).map phiP) ≠ [] := by
    simp [eseJ]
  have := argmin_list_lt _ hne
  simpa using this

theorem ese_inner_step_consistent {α : Type} (phiP : α → ℚ) (exchange : ℕ → α → α)
    (u : ℚ) (st : EseState α) (h : ese_consistent phiP st) :
    ese_consistent phiP (ese_inner_step phiP exchange u st) := by
  unfold ese_inner_step
  dsimp only
  split
  · split
    · exact ⟨ese_inner_step_phi_try phiP exchange st, ese_inner_step_phi_try phiP exchange st⟩
    · exact ⟨ese_inner_step_phi_try phiP exchange st, h.2⟩
  · exact h

theorem ese_inner_step_phi_best_le {α : Type} (phiP : α → ℚ) (exchange : ℕ → α → α)
    (u : ℚ) (st : EseState α) :
    (ese_inner_step phiP exchange u st).Phi_best ≤ st.Phi_best := by
  unfold ese_inner_step
  dsimp only
  split
  · split
    · next h2 => exact le_of_lt h2
    · exact le_refl _
  · exact le_refl _

theorem ese_inner_foldl_consistent {α : Type} (phiP : α → ℚ) (L : List ℕ)
    (ex : ℕ → ℕ → α → α) (u : ℕ → ℚ) (st : EseState α) (h : ese_consistent phiP st) :
    ese_consistent phiP
      (L.foldl (fun s i => ese_inner_step phiP (ex i) (u i) s) st) := by
  induction L generalizing st with
  | nil => exact h
  | cons a L ih =>
    exact ih _ (ese_inner_step_consistent phiP (ex a) (u a) st h)

theorem ese_inner_foldl_phi_best_le {α : Type} (phiP : α → ℚ) (L : List ℕ)
    (ex : ℕ → ℕ → α → α) (u : ℕ → ℚ) (st : EseState α) :
    (L.foldl (fun s i => ese_inner_step phiP (ex i) (u i) s) st).Phi_best ≤
      st.Phi_best := by
  induction L generalizing st with
  | nil => exact le_refl _
  | cons a L ih =>
    exact le_trans (ih _) (ese_inner_step_phi_best_le phiP (ex a) (u a) st)

theorem ese_outer_step_consistent {α : Type} (phiP : α → ℚ) (ex : ℕ → ℕ → α → α)
    (rand : ℕ → ℚ) (inner_loop : ℕ) (st : EseState α) (h : ese_consistent phiP st) :
    ese_consistent phiP (ese_outer_step phiP ex rand inner_loop st) := by
  unfold ese_outer_step
  dsimp only
  exact ese_inner_foldl_consistent phiP _ ex rand _ h

theorem ese_outer_step_phi_best_le {α : Type} (phiP : α → ℚ) (ex : ℕ → ℕ → α → α)
    (rand : ℕ → ℚ) (inner_loop : ℕ) (st : EseState α) :
    (ese_outer_step phiP ex rand inner_loop st).Phi_best ≤ st.Phi_best := by
  unfold ese_outer_step
  dsimp only
  exact ese_inner_foldl_phi_best_le phiP _ ex rand _

theorem ese_outer_iter_consistent {α : Type} (phiP : α → ℚ)
    (exchange : ℕ → ℕ → ℕ → α → α) (rand : ℕ → ℕ → ℚ) (inner_loop : ℕ) (P0 : α)
    (n : ℕ) : ese_consistent phiP (ese_outer_iter phiP exchange rand inner_loop P0 n) := by
  induction n with
  | zero => exact ⟨rfl, rfl⟩
  | succ n ih =>
    unfold ese_outer_iter at ih ⊢
    rw [List.range_succ, List.foldl_append, List.foldl_cons, List.foldl_nil]
    exact ese_outer_step_consistent phiP _ _ _ _ ih

theorem ese_outer_iter_succ_le {α : Type} (phiP : α → ℚ)
    (exchange : ℕ → ℕ → ℕ → α → α) (rand : ℕ → ℕ → ℚ) (inner_loop : ℕ) (P0 : α)
    (n : ℕ) :
    (ese_outer_iter phiP exchange rand inner_loop P0 (n + 1)).Phi_best ≤
      (ese_outer_iter phiP exchange rand inner_loop P0 n).Phi_best := by
  unfold ese_outer_iter
  rw [List.range_succ, List.foldl_append, List.foldl_cons, List.foldl_nil]
  exact ese_outer_step_phi_best_le phiP _ _ _ _

theorem ese_outer_iter_le_init {α : Type} (phiP : α → ℚ)
    (exchange : ℕ → ℕ → ℕ → α → α) (rand : ℕ → ℕ → ℚ) (inner_loop : ℕ) (P0 : α)
    (n : ℕ) :
    (ese_outer_iter phiP exchange rand inner_loop P0 n).Phi_best ≤ phiP P0 := by
  induction n with
  | zero => exact le_refl _
  | succ n ih => exact le_trans (ese_outer_iter_succ_le phiP _ _ _ _ n) ih

/-- C8: in `lhs_ese`, `Phi_best` never increases — across every single
inner-loop step and hence across outer-loop passes — because `P_best` is
replaced only when an accepted design has strictly smaller PhiP than the
current `Phi_best`; consequently the PhiP of the returned design is at
most the PhiP of the initial design `P0`. -/
theorem lhs_ese_phi_best_monotone {α : Type} (phiP : α → ℚ)
    (exchange : ℕ → ℕ → ℕ → α → α) (rand : ℕ → ℕ → ℚ) (dim : ℕ) (P0 : α) :
    (∀ (ex : ℕ → α → α) (u : ℚ) (st : EseState α),
      (ese_inner_step phiP ex u st).Phi_best ≤ st.Phi_best) ∧
    (∀ n, (ese_outer_iter phiP exchange rand (min (20 * dim) 100) P0 (n + 1)).Phi_best ≤
          (ese_outer_iter phiP exchange rand (min (20 * dim) 100) P0 n).Phi_best) ∧
    phiP (lhs_ese phiP exchange rand dim P0) ≤ phiP P0 := by
  refine ⟨fun ex u st => ese_inner_step_phi_best_le phiP ex u st,
    fun n => ese_outer_iter_succ_le phiP exchange rand _ P0 n, ?_⟩
  have hcons := ese_outer_iter_consistent phiP exchange rand (min (20 * dim) 100) P0
    (min (3 * dim / 2) 30)
  have hle := ese_outer_iter_le_init phiP exchange rand (min (20 * dim) 100) P0
    (min (3 * dim / 2) 30)
  unfold lhs_ese
  rw [← hcons.2]
  exact hle

/-! ## SparseGrid merge/cancel/filter (`calc_coords_weights`)

The union of the sub-grid tensor products is the parallel pair of arrays
`dll_k` (points) and `dll_w` (weights), embedded as one list of
(point, weight) items.  The source marks grouping progress in
`point_number_list` (initialized to `-1`, i.e. unassigned, modelled as
`Option ℕ`); each `while` pass compacts the unassigned entries, takes
the first one as seed, and scatters the group number back onto the
unassigned entries within tolerance. -/

/-- Point-merging tolerance `epsilon_k = 1e-6`. -/
def epsK : ℚ := 1 / 1000000

/-- Weight filter threshold `epsilon_w = 1e-8 / dim`. -/
def epsW (dim : ℕ) : ℚ := (1 / 100000000) / dim

/-- L1 distance `np.sum(np.abs(a - b), axis=1)` between two points. -/
def l1_dist (a b : List ℚ) : ℚ := ((a.zip b).map fun p => |p.1 - p.2|).sum

/-- One body of the grouping `while` loop: every still-unassigned item
whose point lies within `epsilon_k` L1 distance of the seed `p0`
receives group number `no`; assigned entries are untouched (the numpy
code computes this on the compacted unassigned subarray `dll_k_nf` and
scatters it back through the `not_found` mask). -/
def assign_near (items : List (List ℚ × ℚ)) (assign : List (Option ℕ))
    (p0 : List ℚ) (no : ℕ) : List (Option ℕ) :=
  (items.zip assign).map fun ia =>
    match ia.2 with
    | some g => some g
    | none => if l1_dist ia.1.1 p0 < epsK then some no else none

/-- The still-unassigned items, in order (`dll_k_nf = dll_k[not_found]`
together with their weights). -/
def unassigned_items (items : List (List ℚ × ℚ)) (assign : List (Option ℕ)) :
    List (List ℚ × ℚ) :=
  ((items.zip assign).filter fun ia => ia.2 = Option.none).map Prod.fst

/-- The first still-unassigned item (`dll_k_nf[0]`). -/
def first_unassigned (items : List (List ℚ × ℚ)) (assign : List (Option ℕ)) :
    Option (List ℚ × ℚ) :=
  ((items.zip assign).find? fun ia => ia.2 = Option.none).map Prod.fst

/-- The grouping loop `while any(point_number_list < 0)`: take the first
unassigned item, append its point to the seed list (`coords_norm`),
assign the next group number to everything unassigned within tolerance
of it, and repeat.  Each pass assigns at least its own seed (distance
0), so `items.length` passes of fuel always suffice. -/
def merge_loop : ℕ → List (List ℚ × ℚ) → List (Option ℕ) → ℕ →
    List (List ℚ) → List (Option ℕ) × List (List ℚ)
  | 0, _, assign, _, seeds => (assign, seeds)
  | fuel + 1, items, assign, no, seeds =>
    match first_unassigned items assign with
    | none => (assign, seeds)
    | some ia =>
      merge_loop fuel items (assign_near items assign ia.1 no) (no + 1) (seeds ++ [ia.1])

/-- The grouping loop from the all-unassigned initial state. -/
def merge_points (items : List (List ℚ × ℚ)) : List (Option ℕ) × List (List ℚ) :=
  merge_loop items.length items (items.map fun _ => Option.none) 0 []

/-- Merged weight of group `g`
(`weights[i_point] = np.sum(dll_w[point_number_list == i_point])`). -/
def group_weight (items : List (List ℚ × ℚ)) (assign : List (Option ℕ)) (g : ℕ) : ℚ :=
  (((items.zip assign).filter fun ia => ia.2 = some g).map fun ia => ia.1.2).sum

/-- `SparseGrid.calc_coords_weights` merge/cancel/filter stage: group
the sub-grid points, sum weights per group, keep only groups with
`np.abs(weights) > epsilon_w` (so a group at or below the threshold is
discarded), and rescale the surviving weights by `1 / 2**dim`; the
retained points are the group seeds.  (The normal-distribution 1.960
rescale and the denormalization applied afterwards reuse
`get_denormalized_coordinates` and do not touch the weights.) -/
def calc_coords_weights (dim : ℕ) (items : List (List ℚ × ℚ)) :
    List (List ℚ) × List ℚ :=
  let ms := merge_points items
  let weights := (List.range ms.2.length).map fun g => group_weight items ms.1 g
  let kept := (ms.2.zip weights).filter fun sw => epsW dim < |sw.2|
  (kept.map Prod.fst, kept.map fun sw => sw.2 / 2 ^ dim)

/-- Modelled from the spec: repeatedly take the first ungrouped point,
open a new group holding it and every ungrouped point whose L1 distance
from it is below 1e-6, and recurse on the remaining points until all
points are grouped. -/
def spec_groups : List (List ℚ × ℚ) → List (List (List ℚ × ℚ))
  | [] => []
  | x :: rest =>
    (x :: rest.filter fun y => l1_dist y.1 x.1 < epsK) ::
      spec_groups (rest.filter fun y => ¬ l1_dist y.1 x.1 < epsK)
termination_by l => l.length
decreasing_by
  simp only [List.length_cons]
  exact Nat.lt_succ_of_le (List.length_filter_le _ _)

/-- Modelled from the spec: each group contributes its representative
point (the group's seed, the first point taken) and the sum of its
members' sub-grid weights. -/
def spec_merged (items : List (List ℚ × ℚ)) : List (List ℚ × ℚ) :=
  (spec_groups items).map fun g => ((g.headD ([], 0)).1, (g.map fun y => y.2).sum)

/-- Modelled from the spec: discard groups whose absolute merged weight
is not above `1e-8/dim`, rescale the remaining merged weights by
`1/2^dim`. -/
def spec_coords_weights (dim : ℕ) (items : List (List ℚ × ℚ)) :
    List (List ℚ) × List ℚ :=
  let kept := (spec_merged items).filter fun sw => epsW dim < |sw.2|
  (kept.map Prod.fst, kept.map fun sw => sw.2 / 2 ^ dim)

/-- All group numbers stored so far are below the running counter. -/
def assign_bounded (assign : List (Option ℕ)) (no : ℕ) : Prop :=
  ∀ g, some g ∈ assign → g < no

theorem l1_dist_self (a : List ℚ) : l1_dist a a = 0 := by
  induction a with
  | nil => rfl
  | cons x xs ih =>
    simp only [l1_dist, List.zip_cons_cons, List.map_cons, List.sum_cons, sub_self, abs_zero,
      zero_add] at ih ⊢
    exact ih


theorem find?_eq_head_filter {β : Type} (p : β → Bool) (l : List β) :
    l.find? p = (l.filter p).head? := by
  induction l with
  | nil => rfl
  | cons x xs ih =>
    by_cases hx : p x
    · rw [List.find?_cons_of_pos _ hx, List.filter_cons_of_pos hx]
      rfl
    · rw [List.find?_cons_of_neg _ hx, List.filter_cons_of_neg hx, ih]

theorem first_unassigned_eq_head (items : List (List ℚ × ℚ)) (assign : List (Option ℕ)) :
    first_unassigned items assign = (unassigned_items items assign).head? := by
  unfold first_unassigned unassigned_items
  rw [find?_eq_head_filter, List.head?_map]

theorem assign_near_cons_some (x : List ℚ × ℚ) (xs : List (List ℚ × ℚ)) (g : ℕ)
    (as : List (Option ℕ)) (p0 : List ℚ) (no : ℕ) :
    assign_near (x :: xs) (some g :: as) p0 no = some g :: assign_near xs as p0 no := rfl

theorem assign_near_cons_none (x : List ℚ × ℚ) (xs : List (List ℚ × ℚ))
    (as : List (Option ℕ)) (p0 : List ℚ) (no : ℕ) :
    assign_near (x :: xs) (Option.none :: as) p0 no =
      (if l1_dist x.1 p0 < epsK then some no else Option.none) :: assign_near xs as p0 no := rfl

theorem unassigned_items_cons_some (x : List ℚ × ℚ) (xs : List (List ℚ × ℚ)) (g : ℕ)
    (as : List (Option ℕ)) :
    unassigned_items (x :: xs) (some g :: as) = unassigned_items xs as := rfl

theorem unassigned_items_cons_none (x : List ℚ × ℚ) (xs : List (List ℚ × ℚ))
    (as : List (Option ℕ)) :
    unassigned_items (x :: xs) (Option.none :: as) = x :: unassigned_items xs as := rfl

theorem group_weight_cons (x : List ℚ × ℚ) (xs : List (List ℚ × ℚ)) (a : Option ℕ)
    (as : List (Option ℕ)) (g : ℕ) :
    group_weight (x :: xs) (a :: as) g =
      (if a = some g then x.2 else 0) + group_weight xs as g := by
  unfold group_weight
  rw [List.zip_cons_cons]
  by_cases h : a = some g
  · rw [List.filter_cons_of_pos (by simpa using h), List.map_cons, List.sum_cons, if_pos h]
  · rw [List.filter_cons_of_neg (by simpa using h), if_neg h, zero_add]

theorem unassigned_assign_near (items : List (List ℚ × ℚ)) :
    ∀ (assign : List (Option ℕ)) (p0 : List ℚ) (no : ℕ),
      unassigned_items items (assign_near items assign p0 no) =
        (unassigned_items items assign).filter fun y => ¬ l1_dist y.1 p0 < epsK := by
  induction items with
  | nil => intro assign p0 no; rfl
  | cons x xs ih =>
    intro assign p0 no
    cases assign with
    | nil => rfl
    | cons a as =>
      cases a with
      | some g =>
        rw [assign_near_cons_some, unassigned_items_cons_some, unassigned_items_cons_some,
          ih as p0 no]
      | none =>
        rw [assign_near_cons_none]
        by_cases hnear : l1_dist x.1 p0 < epsK
        · rw [if_pos hnear, unassigned_items_cons_some, unassigned_items_cons_none,
            ih as p0 no, List.filter_cons_of_neg (by simp [hnear])]
        · rw [if_neg hnear, unassigned_items_cons_none, unassigned_items_cons_none,
            ih as p0 no, List.filter_cons_of_pos (by simp [hnear])]

theorem assign_near_length (items : List (List ℚ × ℚ)) (assign : List (Option ℕ))
    (p0 : List ℚ) (no : ℕ) (h : assign.length = items.length) :
    (assign_near items assign p0 no).length = items.length := by
  unfold assign_near
  rw [List.length_map, List.length_zip, h, Nat.min_self]

theorem assign_near_bounded (items : List (List ℚ × ℚ)) (assign : List (Option ℕ))
    (p0 : List ℚ) (no : ℕ) (hb : assign_bounded assign no) :
    assign_bounded (assign_near items assign p0 no) (no + 1) := by
  intro g hg
  unfold assign_near at hg
  rw [List.mem_map] at hg
  obtain ⟨ia, hia, hfa⟩ := hg
  have hmem := (List.of_mem_zip hia).2
  cases hoa : ia.2 with
  | some g0 =>
    rw [hoa] at hfa
    simp only at hfa
    obtain rfl := Option.some.inj hfa
    rw [hoa] at hmem
    exact Nat.lt_succ_of_lt (hb _ hmem)
  | none =>
    rw [hoa] at hfa
    simp only at hfa
    split at hfa
    · obtain rfl := Option.some.inj hfa
      exact Nat.lt_succ_self no
    · exact absurd hfa (by simp)

theorem group_weight_assign_near_ne (items : List (List ℚ × ℚ)) :
    ∀ (assign : List (Option ℕ)) (p0 : List ℚ) (no g2 : ℕ), g2 ≠ no →
      group_weight items (assign_near items assign p0 no) g2 =
        group_weight items assign g2 := by
  induction items with
  | nil => intro assign p0 no g2 _; rfl
  | cons x xs ih =>
    intro assign p0 no g2 hne
    cases assign with
    | nil => rfl
    | cons a as =>
      cases a with
      | some g =>
        rw [assign_near_cons_some, group_weight_cons, group_weight_cons, ih as p0 no g2 hne]
      | none =>
        have hnone : ¬ ((Option.none : Option ℕ) = some g2) := by simp
        rw [assign_near_cons_none]
        by_cases hnear : l1_dist x.1 p0 < epsK
        · have hno : ¬ ((some no : Option ℕ) = some g2) := by
            intro h
            exact hne (Option.some.inj h).symm
          rw [if_pos hnear, group_weight_cons, group_weight_cons, ih as p0 no g2 hne,
            if_neg hno, if_neg hnone]
        · rw [if_neg hnear, group_weight_cons, group_weight_cons, ih as p0 no g2 hne]

theorem group_weight_of_bounded (items : List (List ℚ × ℚ)) (assign : List (Option ℕ))
    (no m : ℕ) (hb : assign_bounded assign no) (hm : no ≤ m) :
    group_weight items assign m = 0 := by
  unfold group_weight
  have hnil : ((items.zip assign).filter fun ia => ia.2 = some m) = [] := by
    refine List.filter_eq_nil_iff.mpr ?_
    intro ia hia
    simp only [decide_eq_true_eq]
    intro h2
    have hmem := (List.of_mem_zip hia).2
    rw [h2] at hmem
    exact absurd (hb m hmem) (Nat.not_lt.mpr hm)
  rw [hnil]
  rfl

theorem group_weight_assign_near_self (items : List (List ℚ × ℚ)) :
    ∀ (assign : List (Option ℕ)) (p0 : List ℚ) (no : ℕ), assign_bounded assign no →
      group_weight items (assign_near items assign p0 no) no =
        (((unassigned_items items assign).filter fun y => l1_dist y.1 p0 < epsK).map
          fun y => y.2).sum := by
  induction items with
  | nil => intro assign p0 no _; rfl
  | cons x xs ih =>
    intro assign p0 no hb
    cases assign with
    | nil => rfl
    | cons a as =>
      have hbtail : assign_bounded as no := fun g hg => hb g (List.mem_cons_of_mem _ hg)
      cases a with
      | some g =>
        have hgno : ¬ ((some g : Option ℕ) = some no) := by
          intro h
          obtain rfl := Option.some.inj h
          exact absurd (hb g (List.mem_cons_self _ _)) (lt_irrefl g)
        rw [assign_near_cons_some, group_weight_cons, unassigned_items_cons_some,
          ih as p0 no hbtail, if_neg hgno, zero_add]
      | none =>
        rw [assign_near_cons_none, unassigned_items_cons_none]
        by_cases hnear : l1_dist x.1 p0 < epsK
        · rw [if_pos hnear, group_weight_cons, if_pos rfl,
            List.filter_cons_of_pos (by simp [hnear]), List.map_cons, List.sum_cons,
            ih as p0 no hbtail]
        · rw [if_neg hnear, group_weight_cons, if_neg (by simp), zero_add,
            List.filter_cons_of_neg (by simp [hnear]), ih as p0 no hbtail]

theorem all_isSome_of_unassigned_nil (items : List (List ℚ × ℚ)) :
    ∀ (assign : List (Option ℕ)), assign.length = items.length →
      unassigned_items items assign = [] → assign.all Option.isSome := by
  induction items with
  | nil =>
    intro assign hlen _
    have : assign = [] := List.eq_nil_of_length_eq_zero hlen
    subst this
    rfl
  | cons x xs ih =>
    intro assign hlen hnil
    cases assign with
    | nil => rfl
    | cons a as =>
      cases a with
      | some g =>
        rw [unassigned_items_cons_some] at hnil
        have := ih as (by simpa using hlen) hnil
        simpa [List.all_cons] using this
      | none =>
        rw [unassigned_items_cons_none] at hnil
        exact absurd hnil (by simp)

theorem l1_dist_self_lt_epsK (a : List ℚ) : l1_dist a a < epsK := by
  rw [l1_dist_self]
  norm_num [epsK]

theorem merge_loop_spec (items : List (List ℚ × ℚ)) :
    ∀ (fuel : ℕ) (assign : List (Option ℕ)) (no : ℕ) (seeds : List (List ℚ)),
      assign.length = items.length →
      (unassigned_items items assign).length ≤ fuel →
      assign_bounded assign no →
      (merge_loop fuel items assign no seeds).2 =
          seeds ++ (spec_groups (unassigned_items items assign)).map
            (fun g => (g.headD ([], 0)).1) ∧
      (∀ g, group_weight items (merge_loop fuel items assign no seeds).1 (no + g) =
          (((spec_groups (unassigned_items items assign)).getD g []).map
            fun y => y.2).sum) ∧
      (∀ g2, g2 < no → group_weight items (merge_loop fuel items assign no seeds).1 g2 =
          group_weight items assign g2) ∧
      (merge_loop fuel items assign no seeds).1.all Option.isSome := by
  intro fuel
  induction fuel with
  | zero =>
    intro assign no seeds hlen hfu hb
    have hnil : unassigned_items items assign = [] :=
      List.eq_nil_of_length_eq_zero (Nat.le_zero.mp hfu)
    simp only [merge_loop]
    refine ⟨?_, ?_, fun _ _ => trivial, all_isSome_of_unassigned_nil items assign hlen hnil⟩
    · rw [hnil]
      simp [spec_groups]
    · intro g
      rw [hnil]
      have h0 := group_weight_of_bounded items assign no (no + g) hb (Nat.le_add_right no g)
      simp [spec_groups, h0]
  | succ fuel ih =>
    intro assign no seeds hlen hfu hb
    cases hfu0 : first_unassigned items assign with
    | none =>
      have hnil : unassigned_items items assign = [] := by
        have h := first_unassigned_eq_head items assign
        rw [hfu0] at h
        exact List.head?_eq_none_iff.mp h.symm
      simp only [merge_loop, hfu0]
      refine ⟨?_, ?_, fun _ _ => trivial, all_isSome_of_unassigned_nil items assign hlen hnil⟩
      · rw [hnil]
        simp [spec_groups]
      · intro g
        rw [hnil]
        have h0 := group_weight_of_bounded items assign no (no + g) hb (Nat.le_add_right no g)
        simp [spec_groups, h0]
    | some ia =>
      have hhead : (unassigned_items items assign).head? = some ia := by
        rw [← first_unassigned_eq_head, hfu0]
      obtain ⟨tl, hus⟩ : ∃ tl, unassigned_items items assign = ia :: tl :=
        ⟨_, (List.cons_head?_tail hhead).symm⟩
      simp only [merge_loop, hfu0]
      have hlen2 := assign_near_length items assign ia.1 no hlen
      have hb2 := assign_near_bounded items assign ia.1 no hb
      have hun2 : unassigned_items items (assign_near items assign ia.1 no) =
          tl.filter fun y => ¬ l1_dist y.1 ia.1 < epsK := by
        rw [unassigned_assign_near items assign ia.1 no, hus,
          List.filter_cons_of_neg (by simp [l1_dist_self_lt_epsK])]
      have hfu2 : (unassigned_items items (assign_near items assign ia.1 no)).length ≤
          fuel := by
        rw [hun2]
        have h1 := List.length_filter_le (fun y => decide (¬ l1_dist y.1 ia.1 < epsK)) tl
        have h2 : (unassigned_items items assign).length ≤ fuel + 1 := hfu
        rw [hus, List.length_cons] at h2
        omega
      obtain ⟨ha, hbw, hc, hall⟩ := ih (assign_near items assign ia.1 no) (no + 1)
        (seeds ++ [ia.1]) hlen2 hfu2 hb2
      have hspec : spec_groups (unassigned_items items assign) =
          (ia :: tl.filter fun y => l1_dist y.1 ia.1 < epsK) ::
            spec_groups (tl.filter fun y => ¬ l1_dist y.1 ia.1 < epsK) := by
        rw [hus]
        simp only [spec_groups]
      rw [hun2] at ha hbw
      refine ⟨?_, ?_, ?_, hall⟩
      · rw [ha, hspec]
        simp [List.append_assoc]
      · intro g
        cases g with
        | zero =>
          rw [hspec]
          simp only [List.getD_cons_zero, Nat.add_zero]
          rw [hc no (Nat.lt_succ_self no),
            group_weight_assign_near_self items assign ia.1 no hb, hus,
            List.filter_cons_of_pos (by simp [l1_dist_self_lt_epsK])]
        | succ g =>
          have harith : no + (g + 1) = (no + 1) + g := by omega
          rw [harith, hbw g, hspec]
          simp only [List.getD_cons_succ]
      · intro g2 hg2
        rw [hc g2 (Nat.lt_succ_of_lt hg2),
          group_weight_assign_near_ne items assign ia.1 no g2 (Nat.ne_of_lt hg2)]

theorem unassigned_init (items : List (List ℚ × ℚ)) :
    unassigned_items items (items.map fun _ => Option.none) = items := by
  induction items with
  | nil => rfl
  | cons x xs ih =>
    rw [List.map_cons, unassigned_items_cons_none, ih]

theorem init_bounded (items : List (List ℚ × ℚ)) :
    assign_bounded (items.map fun _ => Option.none) 0 := by
  intro g hg
  rw [List.mem_map] at hg
  obtain ⟨a, _, h⟩ := hg
  exact absurd h (by simp)

theorem range_map_getD_sum (gs : List (List (List ℚ × ℚ))) :
    (List.range gs.length).map (fun g => ((gs.getD g []).map fun y => y.2).sum) =
      gs.map fun grp => (grp.map fun y => y.2).sum := by
  induction gs with
  | nil => rfl
  | cons x xs ih =>
    rw [List.length_cons, List.range_succ_eq_map, List.map_cons, List.map_map]
    exact congrArg (_ :: ·) ih

/-- C3: `SparseGrid.calc_coords_weights` realizes exactly the described
merge/cancel/filter: the sub-grid points are partitioned by repeatedly
taking the first unassigned point and grouping with it every unassigned
point whose L1 distance from it is below 1e-6, until all points are
grouped (second conjunct: the loop leaves no point unassigned); each
retained point's final weight is the sum of the sub-grid weights over
its group divided by `2^dim`, and a group is retained exactly when its
absolute merged weight exceeds `1e-8/dim` — in particular every group
whose absolute merged weight is below the threshold is discarded. -/
theorem calc_coords_weights_matches_spec (dim : ℕ) (items : List (List ℚ × ℚ)) :
    calc_coords_weights dim items = spec_coords_weights dim items ∧
    (merge_points items).1.all Option.isSome := by
  obtain ⟨ha, hbw, hc, hall⟩ := merge_loop_spec items items.length
    (items.map fun _ => Option.none) 0 [] (by rw [List.length_map])
    (by rw [unassigned_init]) (init_bounded items)
  rw [unassigned_init] at ha hbw
  rw [List.nil_append] at ha
  simp only [Nat.zero_add] at hbw
  constructor
  · unfold calc_coords_weights merge_points
    simp only []
    rw [ha]
    have hwfun : (fun g => group_weight items
        (merge_loop items.length items (items.map fun _ => Option.none) 0 []).1 g) =
        fun g => (((spec_groups items).getD g []).map fun y => y.2).sum := funext hbw
    rw [hwfun, List.length_map, range_map_getD_sum, List.zip_map']
    rfl
  · exact hall

end PyGpc
